import Mathlib

/-!
Verification of the ARC scoring engine (normalizer, aggregator, quintile
assigner and governance layer) against its natural-language specification.

The Python sources under scoring-engine/ and recalculate_quintiles.py are
shallowly embedded: a pandas Series becomes a list of optional rationals
(`none` models NaN / missing, matching pandas skipna semantics), the
cross-sectional statistics are computed in exact rational arithmetic, and
scipy.stats.norm.cdf is the mathematical standard normal CDF on the reals
(`ProbabilityTheory.cdf (gaussianReal 0 1)`).
-/

namespace Scoring

/-- Values of a pandas Series column: `none` models NaN / missing. -/
abbrev QSeries := List (Option ℚ)

/-- The defined (non-NaN) values of a series, in order (pandas skipna). -/
def definedVals (xs : QSeries) : List ℚ := xs.filterMap id

/-- Ascending sort underlying the pandas quantile computation. -/
def sortQ (xs : List ℚ) : List ℚ := List.insertionSort (· ≤ ·) xs

/-- Linear interpolation at fractional position `p * (n - 1)` of an
already sorted list, as numpy does for the default quantile method. -/
def interpAt (s : List ℚ) (p : ℚ) : ℚ :=
  let h : ℚ := p * ((s.length : ℚ) - 1)
  let i : ℕ := ⌊h⌋₊
  let lo := s.getD i 0
  let hi := s.getD (i + 1) lo
  lo + (h - i) * (hi - lo)

/-- `Series.quantile(p)` with the default linear interpolation: on the
sorted defined values `v_0 ≤ … ≤ v_(n-1)`, the quantile sits at position
`h = p * (n - 1)`, interpolated between `v_⌊h⌋` and `v_(⌊h⌋+1)`.
`none` on an empty series (pandas returns NaN). -/
def quantileQ (xs : List ℚ) (p : ℚ) : Option ℚ :=
  match xs with
  | [] => none
  | _ :: _ => some (interpAt (sortQ xs) p)

/-- `Series.median()`: the 1/2 quantile under linear interpolation. -/
def medianQ (xs : List ℚ) : Option ℚ := quantileQ xs (1 / 2)

/-- `Series.mean()` over the defined values; NaN (`none`) when empty. -/
def meanQ (xs : List ℚ) : Option ℚ :=
  match xs with
  | [] => none
  | _ :: _ => some (xs.sum / xs.length)

/-- `Series.std()` squared: the ddof-1 sample variance of the defined
values; `none` (NaN) when fewer than two values. -/
def sampleVarQ (xs : List ℚ) : Option ℚ :=
  if 2 ≤ xs.length then
    some (((xs.map fun v => (v - xs.sum / xs.length) ^ 2).sum) / (xs.length - 1))
  else none

/-- `winsorize` from scoring/normalizer.py: clip the series at its
`p_low` / `p_high` empirical quantiles (quantiles ignore NaN entries,
NaN entries are preserved by the clip). -/
def winsorize (xs : QSeries) (p_low p_high : ℚ) : QSeries :=
  let vals := definedVals xs
  match quantileQ vals p_low, quantileQ vals p_high with
  | some lo, some hi => xs.map (Option.map fun v => min (max v lo) hi)
  | _, _ => xs

/-- The 1.4826 factor relating the MAD to a normal standard deviation. -/
def madScale : ℚ := 14826 / 10000

/-- The `mad_min = 1e-6` division-by-zero guard of `robust_zscore`. -/
def madMin : ℚ := 1 / 1000000

/-- `robust_zscore` from scoring/normalizer.py. With `use_robust`, the
center is the median and the scale is `max(MAD * 1.4826, mad_min)`, all
exact rationals. Otherwise the center is the mean and the scale is
`max(std, mad_min)` where `std` is the real square root of the ddof-1
sample variance; pandas returns NaN for the std of fewer than two values
and Python's `max(nan, mad_min)` keeps the NaN first argument, so in that
case every z-score is NaN (`none`). NaN inputs give NaN outputs. -/
noncomputable def robust_zscore (xs : QSeries) (use_robust : Bool) : List (Option ℝ) :=
  match use_robust with
  | true =>
    match medianQ (definedVals xs) with
    | none => xs.map fun _ => none
    | some center =>
      let mad := (medianQ ((definedVals xs).map fun v => |v - center|)).getD 0
      let scale : ℚ := max (mad * madScale) madMin
      xs.map (Option.map fun v : ℚ => (((v - center) / scale : ℚ) : ℝ))
  | false =>
    match meanQ (definedVals xs), sampleVarQ (definedVals xs) with
    | some center, some var =>
      let scale : ℝ := max (Real.sqrt (var : ℝ)) (madMin : ℝ)
      xs.map (Option.map fun v : ℚ => ((v : ℝ) - (center : ℝ)) / scale)
    | _, _ => xs.map fun _ => none

section GaussianCdf

open ProbabilityTheory MeasureTheory

/-- `scipy.stats.norm.cdf`: the standard normal cumulative distribution
function, embedded as the CDF of the Gaussian measure with mean 0 and
variance 1. -/
noncomputable def normCdf (x : ℝ) : ℝ := cdf (gaussianReal 0 1) x

/-- `zscore_to_0_100` from scoring/normalizer.py: `norm.cdf(z) * 100`. -/
noncomputable def zscore_to_0_100 (z : ℝ) : ℝ := normCdf z * 100

lemma normCdf_nonneg (x : ℝ) : 0 ≤ normCdf x := cdf_nonneg _ x

lemma normCdf_le_one (x : ℝ) : normCdf x ≤ 1 := cdf_le_one _ x

lemma gaussianStd_map_neg :
    (gaussianReal 0 1).map (fun x : ℝ => -1 * x) = gaussianReal 0 1 := by
  rw [gaussianReal_map_const_mul]
  norm_num

lemma gaussianStd_singleton (a : ℝ) : gaussianReal 0 1 {a} = 0 :=
  gaussianReal_absolutelyContinuous 0 one_ne_zero (measure_singleton a)

lemma gaussianStd_symm_Iic :
    gaussianReal 0 1 (Set.Iic (0 : ℝ)) = gaussianReal 0 1 (Set.Ici (0 : ℝ)) := by
  conv_lhs => rw [← gaussianStd_map_neg]
  rw [Measure.map_apply (by fun_prop) measurableSet_Iic]
  congr 1
  ext x
  simp

/-- The standard normal CDF at 0 is exactly 1/2: the density is symmetric
and the singleton at 0 is null. -/
lemma normCdf_zero : normCdf 0 = 1 / 2 := by
  have hIci : gaussianReal 0 1 (Set.Ici (0 : ℝ)) = gaussianReal 0 1 (Set.Ioi (0 : ℝ)) := by
    have hset : Set.Ici (0 : ℝ) = {0} ∪ Set.Ioi 0 := by
      ext x
      simp [eq_comm, le_iff_eq_or_lt]
    rw [hset, measure_union (by simp) measurableSet_Ioi, gaussianStd_singleton, zero_add]
  have hsplit : gaussianReal 0 1 (Set.Iic (0 : ℝ)) + gaussianReal 0 1 (Set.Ioi (0 : ℝ)) = 1 := by
    rw [← Set.compl_Iic, measure_add_measure_compl measurableSet_Iic, measure_univ]
  have hhalf : gaussianReal 0 1 (Set.Iic (0 : ℝ)) = 1 / 2 := by
    have h2 : 2 * gaussianReal 0 1 (Set.Iic (0 : ℝ)) = 1 := by
      rw [two_mul]
      calc gaussianReal 0 1 (Set.Iic (0 : ℝ)) + gaussianReal 0 1 (Set.Iic (0 : ℝ))
          = gaussianReal 0 1 (Set.Iic (0 : ℝ)) + gaussianReal 0 1 (Set.Ioi (0 : ℝ)) := by
            rw [gaussianStd_symm_Iic, hIci]
        _ = 1 := hsplit
    rw [ENNReal.eq_div_iff two_ne_zero ENNReal.two_ne_top]
    exact h2
  unfold normCdf
  rw [cdf_eq_toReal, hhalf]
  simp [ENNReal.toReal_div]

lemma gaussianStd_Ioc_pos {a b : ℝ} (hab : a < b) :
    0 < gaussianReal 0 1 (Set.Ioc a b) := by
  rcases eq_or_ne (gaussianReal 0 1 (Set.Ioc a b)) 0 with h | h
  · exfalso
    have hvol : volume (Set.Ioc a b) = 0 :=
      gaussianReal_absolutelyContinuous' 0 one_ne_zero h
    rw [Real.volume_Ioc, ENNReal.ofReal_eq_zero] at hvol
    linarith
  · exact pos_iff_ne_zero.mpr h

/-- The standard normal CDF is strictly monotone (every interval carries
positive Gaussian mass). -/
lemma normCdf_strictMono : StrictMono normCdf := by
  intro a b hab
  have hsplit : gaussianReal 0 1 (Set.Iic b)
      = gaussianReal 0 1 (Set.Iic a) + gaussianReal 0 1 (Set.Ioc a b) := by
    rw [← measure_union (Set.Iic_disjoint_Ioc le_rfl) measurableSet_Ioc,
      Set.Iic_union_Ioc_eq_Iic hab.le]
  unfold normCdf
  rw [cdf_eq_toReal, cdf_eq_toReal, hsplit,
    ENNReal.toReal_add (measure_lt_top _ _).ne (measure_lt_top _ _).ne]
  have hpos := ENNReal.toReal_pos (gaussianStd_Ioc_pos hab).ne' (measure_lt_top _ _).ne
  linarith

end GaussianCdf

/-- The per-(signal, date) normalization body of `normalize_signal` from
scoring/normalizer.py, applied to the `value_raw` column of one group:
winsorize, z-score, multiply by the signal direction, then rescale to
0-100 through the normal CDF. Returns the `value_winsorized`,
`value_zscore` (after the direction multiply, as the source overwrites
the column) and `value_normalized` columns. -/
noncomputable def normalize_group (vals : QSeries) (direction : ℤ)
    (p_low p_high : ℚ) (use_robust : Bool) :
    QSeries × List (Option ℝ) × List (Option ℝ) :=
  let w := winsorize vals p_low p_high
  let z := (robust_zscore w use_robust).map (Option.map fun z => z * (direction : ℝ))
  let nrm := z.map (Option.map zscore_to_0_100)
  (w, z, nrm)

lemma mem_definedVals {xs : QSeries} {v : ℚ} : v ∈ definedVals xs ↔ some v ∈ xs := by
  simp [definedVals, List.mem_filterMap]

lemma sortQ_all_eq {xs : List ℚ} {c : ℚ} (h : ∀ x ∈ xs, x = c) :
    ∀ x ∈ sortQ xs, x = c :=
  fun x hx => h x ((List.perm_insertionSort _ xs).mem_iff.mp hx)

lemma length_sortQ (xs : List ℚ) : (sortQ xs).length = xs.length :=
  (List.perm_insertionSort _ xs).length_eq

lemma getD_all_eq {s : List ℚ} {c : ℚ} (h : ∀ x ∈ s, x = c) {i : ℕ} {d : ℚ}
    (hi : i < s.length) : s.getD i d = c := by
  rw [List.getD_eq_getElem s d hi]
  exact h _ (List.getElem_mem hi)

/-- Interpolating anywhere at `p ≤ 1` inside a nonempty list of equal
values gives that value. -/
lemma interpAt_all_eq {s : List ℚ} {c : ℚ} {p : ℚ} (hne : s ≠ [])
    (h : ∀ x ∈ s, x = c) (hp : p ≤ 1) : interpAt s p = c := by
  have hlen : 1 ≤ s.length := List.length_pos.mpr hne
  have hn1 : (0 : ℚ) ≤ (s.length : ℚ) - 1 := by
    have : (1 : ℚ) ≤ (s.length : ℚ) := by exact_mod_cast hlen
    linarith
  have hle : p * ((s.length : ℚ) - 1) ≤ ((s.length - 1 : ℕ) : ℚ) := by
    rw [Nat.cast_sub hlen]
    push_cast
    exact mul_le_of_le_one_left hn1 hp
  have hfl : ⌊p * ((s.length : ℚ) - 1)⌋₊ ≤ s.length - 1 :=
    (Nat.floor_mono hle).trans_eq (Nat.floor_natCast _)
  have hi : ⌊p * ((s.length : ℚ) - 1)⌋₊ < s.length := by omega
  have hlo : s.getD ⌊p * ((s.length : ℚ) - 1)⌋₊ 0 = c := getD_all_eq h hi
  simp only [interpAt]
  rw [hlo]
  rcases Nat.lt_or_ge (⌊p * ((s.length : ℚ) - 1)⌋₊ + 1) s.length with hlt | hge
  · rw [getD_all_eq h hlt]
    ring
  · rw [List.getD_eq_default _ _ hge]
    ring

/-- A nonempty list of equal values has every quantile `p ≤ 1` equal to
that value. -/
lemma quantileQ_all_eq {xs : List ℚ} {c : ℚ} {p : ℚ} (hne : xs ≠ [])
    (h : ∀ x ∈ xs, x = c) (hp : p ≤ 1) : quantileQ xs p = some c := by
  cases xs with
  | nil => exact absurd rfl hne
  | cons a as =>
    simp only [quantileQ]
    have hs : sortQ (a :: as) ≠ [] := by
      have := length_sortQ (a :: as)
      intro hemp
      rw [hemp] at this
      simp at this
    exact congrArg some (interpAt_all_eq hs (sortQ_all_eq h) hp)

lemma meanQ_all_eq {xs : List ℚ} {c : ℚ} (hne : xs ≠ [])
    (h : ∀ x ∈ xs, x = c) : meanQ xs = some c := by
  cases xs with
  | nil => exact absurd rfl hne
  | cons a as =>
    simp only [meanQ]
    congr 1
    have hrep : a :: as = List.replicate (a :: as).length c :=
      List.eq_replicate_iff.mpr ⟨rfl, h⟩
    rw [hrep, List.sum_replicate, List.length_replicate, nsmul_eq_mul]
    have hlen : ((a :: as).length : ℚ) ≠ 0 := Nat.cast_ne_zero.mpr (by simp)
    field_simp

lemma sampleVarQ_all_eq {xs : List ℚ} {c : ℚ} (hlen : 2 ≤ xs.length)
    (h : ∀ x ∈ xs, x = c) : sampleVarQ xs = some 0 := by
  have hne : xs ≠ [] := by
    intro hemp
    rw [hemp] at hlen
    simp at hlen
  have hmean : xs.sum / (xs.length : ℚ) = c := by
    have := meanQ_all_eq hne h
    cases xs with
    | nil => exact absurd rfl hne
    | cons a as => simpa [meanQ] using this
  simp only [sampleVarQ, if_pos hlen, hmean]
  have hz : ∀ x ∈ xs, (fun v => (v - c) ^ 2) x = (fun _ => (0 : ℚ)) x := by
    intro x hx
    simp [h x hx]
  rw [List.map_congr_left hz]
  simp

lemma definedVals_map_const {xs : QSeries} {f : ℚ → ℚ} :
    definedVals (xs.map (Option.map f)) = (definedVals xs).map f := by
  induction xs with
  | nil => rfl
  | cons o os ih =>
    cases o with
    | none => simpa [definedVals, List.filterMap_cons] using ih
    | some v => simpa [definedVals, List.filterMap_cons] using ih

/-- Winsorization is the identity on a group whose defined values are all
equal (its two clip quantiles both equal that value). -/
lemma winsorize_all_eq {xs : QSeries} {c : ℚ} {p_low p_high : ℚ}
    (hne : definedVals xs ≠ []) (h : ∀ v ∈ definedVals xs, v = c)
    (hpl : p_low ≤ 1) (hph : p_high ≤ 1) :
    winsorize xs p_low p_high = xs := by
  simp only [winsorize, quantileQ_all_eq hne h hpl, quantileQ_all_eq hne h hph]
  have : ∀ o ∈ xs, Option.map (fun v => min (max v c) c) o = id o := by
    intro o ho
    cases o with
    | none => rfl
    | some v =>
      have hv : v = c := h v (mem_definedVals.mpr ho)
      simp [hv]
  rw [List.map_congr_left this, List.map_id]

/-- On a group whose defined values are all equal, `robust_zscore` sends
every defined entry to z-score 0 (the scale is clamped to `mad_min` and
every deviation from the center is 0). The classical branch needs at
least two defined values, since pandas gives NaN for the std of one. -/
lemma robust_zscore_all_eq {xs : QSeries} {c : ℚ} {use_robust : Bool}
    (hne : definedVals xs ≠ []) (h : ∀ v ∈ definedVals xs, v = c)
    (hcase : use_robust = true ∨ 2 ≤ (definedVals xs).length) :
    robust_zscore xs use_robust = xs.map (Option.map fun _ => (0 : ℝ)) := by
  cases use_robust with
  | true =>
    have hmed : medianQ (definedVals xs) = some c := quantileQ_all_eq hne h (by norm_num)
    have hdev : ∀ x ∈ (definedVals xs).map fun v => |v - c|, x = (0 : ℚ) := by
      intro x hx
      obtain ⟨v, hv, rfl⟩ := List.mem_map.mp hx
      simp [h v hv]
    have hmad : medianQ ((definedVals xs).map fun v => |v - c|) = some 0 :=
      quantileQ_all_eq (by simpa using hne) hdev (by norm_num)
    simp only [robust_zscore, hmed, hmad, Option.getD_some]
    refine List.map_congr_left ?_
    intro o ho
    cases o with
    | none => rfl
    | some v =>
      have hv : v = c := h v (mem_definedVals.mpr ho)
      have hscale : max (0 * madScale) madMin = madMin := by norm_num [madMin]
      simp [hv, hscale]
  | false =>
    have hlen : 2 ≤ (definedVals xs).length := by
      rcases hcase with hcase | hcase
      · exact absurd hcase (by simp)
      · exact hcase
    have hmean : meanQ (definedVals xs) = some c := meanQ_all_eq hne h
    have hvar : sampleVarQ (definedVals xs) = some 0 := sampleVarQ_all_eq hlen h
    simp only [robust_zscore, hmean, hvar]
    refine List.map_congr_left ?_
    intro o ho
    cases o with
    | none => rfl
    | some v =>
      have hv : v = c := h v (mem_definedVals.mpr ho)
      have hscale : max (Real.sqrt ((0 : ℚ) : ℝ)) ((madMin : ℚ) : ℝ) = (madMin : ℝ) := by
        rw [Rat.cast_zero, Real.sqrt_zero]
        refine max_eq_right ?_
        norm_num [madMin]
      simp [hv, hscale]

lemma zscore_to_0_100_zero : zscore_to_0_100 0 = 50 := by
  rw [zscore_to_0_100, normCdf_zero]
  norm_num

/-- C1 (amended): the neutral 50 fallback holds exactly for the groups
whose defined observations are all equal (in particular any
single-observation group under the default robust estimator, and any
all-equal group of at least 2 under the classical one): there the clamped
scale `max(.., 1e-6)` gives z-score 0 and `norm.cdf(0) * 100 = 50`
exactly, with no error and no NaN. A group with fewer than 3 distinct
observations does NOT in general normalize to 50 (see the
counterexample), because `robust_zscore` has no minimum-group-size
branch. -/
theorem C1_all_equal_group_is_neutral_50 (vals : QSeries) (c : ℚ)
    (direction : ℤ) (p_low p_high : ℚ) (use_robust : Bool)
    (hne : definedVals vals ≠ [])
    (hconst : ∀ v ∈ definedVals vals, v = c)
    (hpl : p_low ≤ 1) (hph : p_high ≤ 1)
    (hcase : use_robust = true ∨ 2 ≤ (definedVals vals).length) :
    (normalize_group vals direction p_low p_high use_robust).2.2
      = vals.map (Option.map fun _ => (50 : ℝ)) := by
  simp only [normalize_group]
  rw [winsorize_all_eq hne hconst hpl hph, robust_zscore_all_eq hne hconst hcase,
    List.map_map, List.map_map]
  refine List.map_congr_left ?_
  intro o _
  cases o with
  | none => rfl
  | some v => simp [Option.map_map, Function.comp, zscore_to_0_100_zero]

/-- Witness for C1: a 2-valid-observation group of equal values (with a
NaN in the middle) normalizes to exactly [50, NaN, 50]. -/
theorem C1_all_equal_group_is_neutral_50_witness :
    (definedVals [some (3 : ℚ), none, some 3] ≠ [] ∧
        ∀ v ∈ definedVals [some (3 : ℚ), none, some 3], v = 3) ∧
      (normalize_group [some (3 : ℚ), none, some 3] (-1) (1 / 20) (19 / 20) true).2.2
        = [some (3 : ℚ), none, some 3].map (Option.map fun _ => (50 : ℝ)) :=
  ⟨⟨by decide, by decide⟩,
    C1_all_equal_group_is_neutral_50 [some 3, none, some 3] 3 (-1) (1 / 20) (19 / 20)
      true (by decide) (by decide) (by norm_num) (by norm_num) (Or.inl rfl)⟩

/-- C1 counterexample: the group {10, 20} has only 2 valid observations,
yet under the default robust settings its normalized values are not
[50, 50] (they are 100·Φ(∓0.6745…), ≈ 25 and ≈ 75): the code has no
fewer-than-3-observations fallback. -/
theorem C1_counterexample_two_obs_not_neutral :
    (normalize_group [some (10 : ℚ), some 20] 1 (1 / 20) (19 / 20) true).2.2
      ≠ [some (50 : ℝ), some 50] := by
  have hf1 : ⌊(1 : ℚ) / 20⌋₊ = 0 := by norm_num
  have hf2 : ⌊(19 : ℚ) / 20⌋₊ = 0 := by norm_num
  have hf3 : ⌊(1 : ℚ) / 2⌋₊ = 0 := by norm_num
  have hw : winsorize [some (10 : ℚ), some 20] (1 / 20) (19 / 20)
      = [some (21 / 2), some (39 / 2)] := by
    norm_num [winsorize, quantileQ, interpAt, sortQ, definedVals, List.insertionSort,
      List.orderedInsert, List.filterMap_cons, hf1, hf2]
  have hmed : medianQ (definedVals [some ((21 : ℚ) / 2), some (39 / 2)]) = some 15 := by
    norm_num [medianQ, quantileQ, interpAt, sortQ, definedVals, List.insertionSort,
      List.orderedInsert, List.filterMap_cons, hf3]
  have hmad : medianQ ((definedVals [some ((21 : ℚ) / 2), some (39 / 2)]).map
      fun v => |v - 15|) = some (9 / 2) := by
    norm_num [medianQ, quantileQ, interpAt, sortQ, definedVals, List.insertionSort,
      List.orderedInsert, List.filterMap_cons, hf3, abs]
  intro heq
  simp only [normalize_group, hw, robust_zscore, hmed, hmad, Option.getD_some,
    List.map_cons, List.map_nil, Option.map_some', Int.cast_one, mul_one,
    List.cons.injEq, Option.some.injEq, and_true] at heq
  obtain ⟨h1, -⟩ := heq
  simp only [zscore_to_0_100] at h1
  have hhalf : normCdf ((((21 : ℚ) / 2 - 15) / max (9 / 2 * madScale) madMin : ℚ) : ℝ)
      = normCdf 0 := by
    rw [normCdf_zero]
    linarith
  have hzero := normCdf_strictMono.injective hhalf
  rw [Rat.cast_eq_zero] at hzero
  rw [show ((21 : ℚ) / 2 - 15) = -9 / 2 by norm_num] at hzero
  have hscale : max ((9 : ℚ) / 2 * madScale) madMin = 66717 / 10000 := by
    norm_num [madScale, madMin]
  rw [hscale] at hzero
  norm_num at hzero

/-- A row of the normalized-signals dataframe handed to the aggregator
(scoring/aggregator.py). The normalized-value type is a parameter: the
pipeline instantiates it with `ℝ` (values come through the normal CDF),
while claims about the aggregation arithmetic use exact rationals. -/
structure NormRow (α : Type) where
  date : ℤ
  ticker : String
  signal_name : String
  value_raw : Option ℚ
  value_winsorized : Option ℚ
  value_zscore : Option α
  value_normalized : Option α

/-- `aggregate_weighted` from scoring/aggregator.py: iterate the
configured `signal_weights` in order; for each signal whose first
matching (ticker, date) row exists and has a non-NaN normalized value,
accumulate `value * weight` and `weight`; finally divide, or return NaN
(`none`) when the accumulated weight is not positive. -/
def aggregate_weighted {α : Type} [LinearOrderedField α] (df_signals : List (NormRow α))
    (ticker : String) (date : ℤ) (signal_weights : List (String × ℚ)) :
    Option α × List (String × α) :=
  let tds := df_signals.filter fun r => r.ticker == ticker && r.date == date
  let acc := signal_weights.foldl (fun acc sw =>
    match ((tds.filter fun r => r.signal_name == sw.1).head?).bind
        (fun r => r.value_normalized) with
    | some value => (acc.1 + sw.2, acc.2.1 + value * (sw.2 : α), acc.2.2 ++ [(sw.1, value)])
    | none => acc) ((0 : ℚ), (0 : α), ([] : List (String × α)))
  (if 0 < acc.1 then some (acc.2.1 / (acc.1 : α)) else none, acc.2.2)

/-- The configured signals that are present for (ticker, date): for each,
its name, its configured weight and its normalized value. This is the
specification-side description of what the `aggregate_weighted` loop
accumulates. -/
def presentSignals {α : Type} [LinearOrderedField α] (df_signals : List (NormRow α))
    (ticker : String) (date : ℤ) (signal_weights : List (String × ℚ)) :
    List (String × ℚ × α) :=
  signal_weights.filterMap fun sw =>
    ((((df_signals.filter fun r => r.ticker == ticker && r.date == date).filter
        fun r => r.signal_name == sw.1).head?).bind (fun r => r.value_normalized)).map
      fun v => (sw.1, sw.2, v)

lemma aggregate_weighted_foldl {α : Type} [LinearOrderedField α]
    (tds : List (NormRow α)) (ws : List (String × ℚ))
    (tw0 : ℚ) (s0 : α) (cs0 : List (String × α)) :
    ws.foldl (fun acc sw =>
      match ((tds.filter fun r => r.signal_name == sw.1).head?).bind
          (fun r => r.value_normalized) with
      | some value => (acc.1 + sw.2, acc.2.1 + value * (sw.2 : α), acc.2.2 ++ [(sw.1, value)])
      | none => acc) (tw0, s0, cs0)
    = (tw0 + (ws.filterMap fun sw =>
          ((((tds.filter fun r => r.signal_name == sw.1).head?).bind
            (fun r => r.value_normalized)).map fun v => (sw.1, sw.2, v))).foldr
            (fun x acc => x.2.1 + acc) 0,
       s0 + (ws.filterMap fun sw =>
          ((((tds.filter fun r => r.signal_name == sw.1).head?).bind
            (fun r => r.value_normalized)).map fun v => (sw.1, sw.2, v))).foldr
            (fun x acc => x.2.2 * (x.2.1 : α) + acc) 0,
       cs0 ++ (ws.filterMap fun sw =>
          ((((tds.filter fun r => r.signal_name == sw.1).head?).bind
            (fun r => r.value_normalized)).map fun v => (sw.1, sw.2, v))).map
            fun x => (x.1, x.2.2)) := by
  induction ws generalizing tw0 s0 cs0 with
  | nil => simp
  | cons sw rest ih =>
    cases hlook : ((tds.filter fun r => r.signal_name == sw.1).head?).bind
        (fun r => r.value_normalized) with
    | none =>
      simp only [List.foldl_cons, hlook, List.filterMap_cons, Option.map_none']
      rw [ih]
    | some v =>
      simp only [List.foldl_cons, hlook, List.filterMap_cons, Option.map_some']
      rw [ih]
      simp only [List.foldr_cons, List.map_cons, List.cons_append, Prod.mk.injEq]
      refine ⟨by ring, by ring, by simp⟩

/-- The total configured weight of the present signals. -/
def presentWeight {α : Type} [LinearOrderedField α] (df_signals : List (NormRow α))
    (ticker : String) (date : ℤ) (signal_weights : List (String × ℚ)) : ℚ :=
  (presentSignals df_signals ticker date signal_weights).foldr (fun x acc => x.2.1 + acc) 0

/-- The weight-weighted sum of the present normalized values. -/
def presentDot {α : Type} [LinearOrderedField α] (df_signals : List (NormRow α))
    (ticker : String) (date : ℤ) (signal_weights : List (String × ℚ)) : α :=
  (presentSignals df_signals ticker date signal_weights).foldr
    (fun x acc => x.2.2 * (x.2.1 : α) + acc) 0

/-- C2: `score_raw` is the weighted average of the present configured
signals with the weights renormalized over the present ones only (missing
signals leave both numerator and denominator); with weights
{A: 0.6, B: 0.4} and only A present at 80 the score is exactly 80; with
zero present signals the score is NaN (`none`), not 0 and not 50. -/
theorem C2_weighted_average_renormalized :
    (∀ (α : Type) (inst : LinearOrderedField α) (df_signals : List (NormRow α))
        (ticker : String) (date : ℤ) (signal_weights : List (String × ℚ)),
      (aggregate_weighted df_signals ticker date signal_weights).1
        = if 0 < presentWeight df_signals ticker date signal_weights then
            some (presentDot df_signals ticker date signal_weights
              / (presentWeight df_signals ticker date signal_weights : α))
          else none) ∧
    (aggregate_weighted
        ([⟨20240101, "E1", "A", none, none, none, some 80⟩] : List (NormRow ℚ))
        "E1" 20240101 [("A", 6 / 10), ("B", 4 / 10)]).1 = some 80 ∧
    (aggregate_weighted ([] : List (NormRow ℚ)) "E1" 20240101
        [("A", 6 / 10), ("B", 4 / 10)]).1
      = none := by
  refine ⟨?_, ?_, ?_⟩
  · intro α inst df t d ws
    simp only [aggregate_weighted, aggregate_weighted_foldl, presentWeight, presentDot,
      presentSignals, zero_add]
  · simp [aggregate_weighted]
  · simp [aggregate_weighted]

/-- A row of the risk-metrics dataframe: the metric columns are an
association list from column name to the (possibly NaN) value. -/
structure RiskRow where
  ticker : String
  date : ℤ
  metrics : List (String × Option ℚ)

/-- One soft-penalty rule as read from
`config['risk_penalties']['soft_penalties']` (scoring/aggregator.py),
with its `affected_scores`, `threshold_percentile` and `max_penalty`. -/
structure PenaltyRule where
  name : String
  affected_scores : List String
  threshold_percentile : ℚ
  max_penalty : ℚ

/-- `Series.max()` of a nonempty list (0 on the unreachable empty case). -/
def maxQ (xs : List ℚ) : ℚ :=
  match xs with
  | [] => 0
  | x :: rest => rest.foldl max x

/-- `apply_risk_penalties` from scoring/aggregator.py. NaN scores pass
through; an entity with no risk row on that date returns the score
unchanged (with no flooring). Otherwise, for every applicable rule whose
metric column exists, the cross-sectional threshold is the
`threshold_percentile` quantile of the non-NaN column values at that
date; a value strictly above it incurs
`min(excess * max_penalty, max_penalty)` where
`excess = (value - threshold) / (max - threshold + 1e-6)`; penalties add
up and the result is `max(0, score - total_penalty)`. -/
def apply_risk_penalties {α : Type} [LinearOrderedField α] (score : Option α)
    (ticker : String) (date : ℤ) (df_risk : List RiskRow)
    (penalties : List PenaltyRule) (block : String) :
    Option α × List (String × ℚ) :=
  match score with
  | none => (none, [])
  | some s =>
    let tdr := df_risk.filter fun r => r.ticker == ticker && r.date == date
    match tdr.head? with
    | none => (some s, [])
    | some row0 =>
      let acc := penalties.foldl (fun acc rule =>
        if rule.affected_scores.contains block || rule.affected_scores.contains "all" then
          match row0.metrics.lookup rule.name with
          | some mval =>
            let all_values := (df_risk.filter fun r => r.date == date).filterMap
              fun r => (r.metrics.lookup rule.name).getD none
            match mval, quantileQ all_values (rule.threshold_percentile / 100) with
            | some value, some threshold =>
              if threshold < value then
                let excess := (value - threshold) / (maxQ all_values - threshold + 1 / 1000000)
                let penalty := min (excess * rule.max_penalty) rule.max_penalty
                (acc.1 + penalty, acc.2 ++ [(rule.name, penalty)])
              else acc
            | _, _ => acc
          | none => acc
        else acc) ((0 : ℚ), ([] : List (String × ℚ)))
      (some (max 0 (s - (acc.1 : α))), acc.2)

/-- C3 (amended): `value_normalized` always lies in [0, 100] (the normal
CDF lands in [0, 1]); whenever the entity has a risk row on that date the
adjusted score is `max(0, score - penalties)`, hence nonnegative and not
capped at 100 (a 150 input with a risk row and no applicable penalties
stays 150). But when the entity has no risk row the score passes through
without flooring (see the counterexample with a negative input). -/
theorem C3_bounds_floor_no_cap :
    (∀ z : ℝ, 0 ≤ zscore_to_0_100 z ∧ zscore_to_0_100 z ≤ 100) ∧
    (∀ (α : Type) (inst : LinearOrderedField α) (s : α) (tk : String) (d : ℤ)
        (risk : List RiskRow) (pens : List PenaltyRule) (blk : String),
      (risk.filter fun r => r.ticker == tk && r.date == d) ≠ [] →
      ∃ t : α, (apply_risk_penalties (some s) tk d risk pens blk).1 = some t ∧ 0 ≤ t) ∧
    (apply_risk_penalties (some (150 : ℚ)) "T" 0 [⟨"T", 0, []⟩] [] "quality").1
      = some 150 := by
  refine ⟨?_, ?_, ?_⟩
  · intro z
    constructor
    · have := normCdf_nonneg z
      simp only [zscore_to_0_100]
      nlinarith
    · have := normCdf_le_one z
      simp only [zscore_to_0_100]
      nlinarith
  · intro α inst s tk d risk pens blk hne
    simp only [apply_risk_penalties]
    cases hhd : (risk.filter fun r => r.ticker == tk && r.date == d).head? with
    | none => exact absurd (List.head?_eq_none_iff.mp hhd) hne
    | some row0 =>
      exact ⟨_, rfl, le_max_left 0 _⟩
  · simp [apply_risk_penalties]

/-- Witness for C3: a defined score with a present risk row is floored. -/
theorem C3_bounds_floor_no_cap_witness :
    (([⟨"T", 0, []⟩] : List RiskRow).filter
        fun r => r.ticker == "T" && r.date == 0) ≠ [] ∧
    ∃ t : ℚ, (apply_risk_penalties (some (-3 : ℚ)) "T" 0 [⟨"T", 0, []⟩] [] "piotroski").1
        = some t ∧ 0 ≤ t :=
  ⟨by simp,
    C3_bounds_floor_no_cap.2.1 ℚ inferInstance (-3) "T" 0 [⟨"T", 0, []⟩] [] "piotroski"
      (by simp)⟩

/-- C3 counterexample: with no risk row for the entity, a negative raw
score passes through `apply_risk_penalties` unfloored, so "score_adjusted
is always >= 0" fails on the early-return path. -/
theorem C3_counterexample_no_risk_row_skips_floor :
    (apply_risk_penalties (some (-5 : ℚ)) "T" 0 [] [] "quality").1 = some (-5) ∧
      (-5 : ℚ) < 0 := by
  constructor
  · simp [apply_risk_penalties]
  · norm_num

/-- Cross-sectional risk data for the penalty example: 11 entities
T0..T10 with metric `debt` equal to 0..10 on one date; the 90th
percentile of 0..10 is exactly 9. -/
def c4Risk : List RiskRow :=
  [⟨"T0", 0, [("debt", some 0)]⟩, ⟨"T1", 0, [("debt", some 1)]⟩,
    ⟨"T2", 0, [("debt", some 2)]⟩, ⟨"T3", 0, [("debt", some 3)]⟩,
    ⟨"T4", 0, [("debt", some 4)]⟩, ⟨"T5", 0, [("debt", some 5)]⟩,
    ⟨"T6", 0, [("debt", some 6)]⟩, ⟨"T7", 0, [("debt", some 7)]⟩,
    ⟨"T8", 0, [("debt", some 8)]⟩, ⟨"T9", 0, [("debt", some 9)]⟩,
    ⟨"T10", 0, [("debt", some 10)]⟩]

/-- The penalty rule of the example: threshold_percentile 90,
max_penalty 10, affecting the quality block. -/
def c4Rule : PenaltyRule := ⟨"debt", ["quality"], 90, 10⟩

set_option maxHeartbeats 1000000 in
/-- C4 (amended): the entity exactly at the cross-sectional threshold
(T9, value 9 = the 90th percentile of 0..10) receives penalty 0; the
entity at the maximum (T10) receives penalty
`max_penalty * (max - thr) / (max - thr + 1e-6) = 10000000/1000001`,
which is strictly less than `max_penalty = 10` (though within 1e-5 of
it), because of the `+ 1e-6` guard in the denominator; the penalty scales
linearly in the excess and is capped by `min(.., max_penalty)`. -/
theorem C4_threshold_zero_max_near_max_penalty :
    (∀ s : ℚ, apply_risk_penalties (some s) "T9" 0 c4Risk [c4Rule] "quality"
      = (some (max 0 s), [])) ∧
    (∀ s : ℚ, apply_risk_penalties (some s) "T10" 0 c4Risk [c4Rule] "quality"
      = (some (max 0 (s - 10000000 / 1000001)), [("debt", 10000000 / 1000001)])) ∧
    (10000000 / 1000001 : ℚ) < 10 ∧ (10 : ℚ) - 1 / 100000 < 10000000 / 1000001 := by
  have hf : ⌊(90 : ℚ) / 100 * (((11 : ℕ) : ℚ) - 1)⌋₊ = 9 := by norm_num
  have hname : c4Rule.name = "debt" := rfl
  have haff : (c4Rule.affected_scores.contains "quality"
      || c4Rule.affected_scores.contains "all") = true := rfl
  have hpct : c4Rule.threshold_percentile = 90 := rfl
  have hmaxp : c4Rule.max_penalty = 10 := rfl
  have hvals : (c4Risk.filter fun r => r.date == 0).filterMap
      (fun r => (r.metrics.lookup "debt").getD none)
      = [0, 1, 2, 3, 4, 5, 6, 7, 8, 9, 10] := rfl
  have hquant : quantileQ [0, 1, 2, 3, 4, 5, 6, 7, 8, 9, 10] (90 / 100) = some 9 := by
    norm_num [quantileQ, interpAt, sortQ, List.insertionSort, List.orderedInsert, hf]
  have hmaxv : maxQ [0, 1, 2, 3, 4, 5, 6, 7, 8, 9, 10] = 10 := by
    norm_num [maxQ]
  refine ⟨?_, ?_, by norm_num, by norm_num⟩
  · intro s
    have hfind : List.find? (fun r => r.ticker == "T9" && r.date == 0) c4Risk
        = some ⟨"T9", 0, [("debt", some 9)]⟩ := rfl
    have hlook : List.lookup "debt" [("debt", some (9 : ℚ))] = some (some 9) := rfl
    simp only [apply_risk_penalties, List.filter_head?, hfind, haff, hname, hpct, hmaxp,
      List.foldl_cons, List.foldl_nil, if_true, hlook, hvals, hquant, hmaxv]
    norm_num
  · intro s
    have hfind : List.find? (fun r => r.ticker == "T10" && r.date == 0) c4Risk
        = some ⟨"T10", 0, [("debt", some 10)]⟩ := rfl
    have hlook : List.lookup "debt" [("debt", some (10 : ℚ))] = some (some 10) := rfl
    simp only [apply_risk_penalties, List.filter_head?, hfind, haff, hname, hpct, hmaxp,
      List.foldl_cons, List.foldl_nil, if_true, hlook, hvals, hquant, hmaxv]
    norm_num

set_option maxHeartbeats 1000000 in
/-- C4 counterexample: the entity at the cross-sectional maximum receives
penalty 10000000/1000001, not exactly 10: with score 50 the adjusted
score is 50 - 10000000/1000001 ≠ 40. -/
theorem C4_counterexample_max_entity_penalty_not_exactly_10 :
    (apply_risk_penalties (some (50 : ℚ)) "T10" 0 c4Risk [c4Rule] "quality").1
        = some (50 - 10000000 / 1000001) ∧
      (50 : ℚ) - 10000000 / 1000001 ≠ 40 := by
  have hf : ⌊(90 : ℚ) / 100 * (((11 : ℕ) : ℚ) - 1)⌋₊ = 9 := by norm_num
  have hname : c4Rule.name = "debt" := rfl
  have haff : (c4Rule.affected_scores.contains "quality"
      || c4Rule.affected_scores.contains "all") = true := rfl
  have hpct : c4Rule.threshold_percentile = 90 := rfl
  have hmaxp : c4Rule.max_penalty = 10 := rfl
  have hvals : (c4Risk.filter fun r => r.date == 0).filterMap
      (fun r => (r.metrics.lookup "debt").getD none)
      = [0, 1, 2, 3, 4, 5, 6, 7, 8, 9, 10] := rfl
  have hquant : quantileQ [0, 1, 2, 3, 4, 5, 6, 7, 8, 9, 10] (90 / 100) = some 9 := by
    norm_num [quantileQ, interpAt, sortQ, List.insertionSort, List.orderedInsert, hf]
  have hmaxv : maxQ [0, 1, 2, 3, 4, 5, 6, 7, 8, 9, 10] = 10 := by
    norm_num [maxQ]
  have hfind : List.find? (fun r => r.ticker == "T10" && r.date == 0) c4Risk
      = some ⟨"T10", 0, [("debt", some 10)]⟩ := rfl
  have hlook : List.lookup "debt" [("debt", some (10 : ℚ))] = some (some 10) := rfl
  constructor
  · simp only [apply_risk_penalties, List.filter_head?, hfind, haff, hname, hpct, hmaxp,
      List.foldl_cons, List.foldl_nil, if_true, hlook, hvals, hquant, hmaxv]
    norm_num
  · norm_num

/-- A JSON value, the type of the configuration dicts handled by the
governance layer (governance/governance.py). -/
inductive JValue where
  | jnull : JValue
  | jbool : Bool → JValue
  | jnum : ℚ → JValue
  | jstr : String → JValue
  | jarr : List JValue → JValue
  | jobj : List (String × JValue) → JValue

/-- Key-sort the fields of one object level, as `json.dumps(sort_keys)`
does during serialization. -/
def sortFields (fs : List (String × JValue)) : List (String × JValue) :=
  List.insertionSort (fun a b => a.1 ≤ b.1) fs

mutual

/-- Recursively key-sort every object: `json.dumps(config, sort_keys=True)`
serializes exactly the canonicalized value in order. -/
def JValue.canon : JValue → JValue
  | .jnull => .jnull
  | .jbool b => .jbool b
  | .jnum q => .jnum q
  | .jstr s => .jstr s
  | .jarr xs => .jarr (JValue.canonList xs)
  | .jobj fs => .jobj (sortFields (JValue.canonFields fs))

def JValue.canonList : List JValue → List JValue
  | [] => []
  | v :: vs => JValue.canon v :: JValue.canonList vs

def JValue.canonFields : List (String × JValue) → List (String × JValue)
  | [] => []
  | (k, v) :: fs => (k, JValue.canon v) :: JValue.canonFields fs

end

mutual

/-- Serialize a JSON value with the default `json.dumps` separators
(string escaping is not modelled; no claim depends on it). -/
def JValue.render : JValue → String
  | .jnull => "null"
  | .jbool true => "true"
  | .jbool false => "false"
  | .jnum q => toString q
  | .jstr s => "\"" ++ s ++ "\""
  | .jarr xs => "[" ++ JValue.renderList xs ++ "]"
  | .jobj fs => "\x7b" ++ JValue.renderFields fs ++ "\x7d"

def JValue.renderList : List JValue → String
  | [] => ""
  | [v] => JValue.render v
  | v :: vs => JValue.render v ++ ", " ++ JValue.renderList vs

def JValue.renderFields : List (String × JValue) → String
  | [] => ""
  | [(k, v)] => "\"" ++ k ++ "\": " ++ JValue.render v
  | (k, v) :: fs => "\"" ++ k ++ "\": " ++ JValue.render v ++ ", " ++ JValue.renderFields fs

end

/-- `json.dumps(config, sort_keys=True)`: serialize the canonicalized
(recursively key-sorted) value. -/
def jsonDumps (v : JValue) : String := JValue.render v.canon

/-- Stand-in for the truncated SHA-256 digest of
`VersionManager.compute_config_hash`: a concrete deterministic digest of
the serialized string. Every claim about the hash depends only on its
determinism as a function of the canonical serialization. -/
def strHash (s : String) : ℕ :=
  s.data.foldl (fun h c => (h * 131 + c.toNat) % 2 ^ 48) 7

/-- `VersionManager.compute_config_hash` from governance/governance.py:
the digest of `json.dumps(config, sort_keys=True)`. -/
def compute_config_hash (config : JValue) : ℕ := strHash (jsonDumps config)

/-- Two configuration values have the same key-value content: equal
leaves, pointwise-equivalent arrays, and objects with (non-duplicated)
equal key sets whose values agree key-by-key — key ORDER is free. -/
inductive JEquiv : JValue → JValue → Prop where
  | jnull : JEquiv .jnull .jnull
  | jbool (b : Bool) : JEquiv (.jbool b) (.jbool b)
  | jnum (q : ℚ) : JEquiv (.jnum q) (.jnum q)
  | jstr (s : String) : JEquiv (.jstr s) (.jstr s)
  | jarr {xs ys : List JValue} : List.Forall₂ JEquiv xs ys →
      JEquiv (.jarr xs) (.jarr ys)
  | jobj {fs gs : List (String × JValue)} :
      (fs.map Prod.fst).Nodup → (gs.map Prod.fst).Nodup →
      (fs.map Prod.fst).Perm (gs.map Prod.fst) →
      (∀ k v w, (k, v) ∈ fs → (k, w) ∈ gs → JEquiv v w) →
      JEquiv (.jobj fs) (.jobj gs)

lemma JValue.canonFields_eq_map (fs : List (String × JValue)) :
    JValue.canonFields fs = fs.map fun p => (p.1, p.2.canon) := by
  induction fs with
  | nil => rfl
  | cons p rest ih =>
    obtain ⟨k, v⟩ := p
    simp [JValue.canonFields, ih]

instance : IsTotal (String × JValue) (fun a b => a.1 ≤ b.1) :=
  ⟨fun a b => le_total a.1 b.1⟩

instance : IsTrans (String × JValue) (fun a b => a.1 ≤ b.1) :=
  ⟨fun _ _ _ h1 h2 => le_trans h1 h2⟩

lemma sortFields_perm (fs : List (String × JValue)) : (sortFields fs).Perm fs :=
  List.perm_insertionSort _ fs

lemma sortFields_keys_sorted (fs : List (String × JValue)) :
    ((sortFields fs).map Prod.fst).Sorted (· ≤ ·) := by
  rw [List.Sorted, List.pairwise_map]
  exact List.sorted_insertionSort _ fs

/-- Two association lists with the same (duplicate-free) key list and
key-determined values are equal. -/
lemma sorted_assoc_ext :
    ∀ {F G : List (String × JValue)}, F.map Prod.fst = G.map Prod.fst →
      (F.map Prod.fst).Nodup →
      (∀ k v w, (k, v) ∈ F → (k, w) ∈ G → v = w) → F = G := by
  intro F
  induction F with
  | nil =>
    intro G hkeys _ _
    have := List.map_eq_nil_iff.mp hkeys.symm
    simp [this]
  | cons p F' ih =>
    intro G hkeys hnd hv
    obtain ⟨k, v⟩ := p
    cases G with
    | nil => simp at hkeys
    | cons q G' =>
      obtain ⟨k2, w⟩ := q
      simp only [List.map_cons, List.cons.injEq] at hkeys
      obtain ⟨hk, htail⟩ := hkeys
      subst hk
      have hvw : v = w :=
        hv k v w (List.mem_cons_self _ _) (List.mem_cons_self _ _)
      subst hvw
      have htl : F' = G' := by
        refine ih htail (by simpa using hnd.of_cons) ?_
        intro a x y hx hy
        by_cases hak : a = k
        · subst hak
          exfalso
          have : a ∈ F'.map Prod.fst := List.mem_map.mpr ⟨(a, x), hx, rfl⟩
          simp only [List.map_cons, List.nodup_cons] at hnd
          exact hnd.1 this
        · exact hv a x y (List.mem_cons_of_mem _ hx) (List.mem_cons_of_mem _ hy)
      rw [htl]

lemma canonFields_keys (fs : List (String × JValue)) :
    (JValue.canonFields fs).map Prod.fst = fs.map Prod.fst := by
  rw [JValue.canonFields_eq_map, List.map_map]
  rfl

/-- The canonical forms of key-value-equivalent configurations coincide:
sorting the keys at every level erases the only degree of freedom the
equivalence allows. -/
lemma canon_eq_of_jequiv_aux :
    ∀ (n : ℕ) (a b : JValue), sizeOf a ≤ n → JEquiv a b → a.canon = b.canon := by
  intro n
  induction n with
  | zero =>
    intro a b hsz _
    exact absurd hsz (by cases a <;> simp)
  | succ n ih =>
    have harr : ∀ xs ys : List JValue, List.Forall₂ JEquiv xs ys →
        (∀ x ∈ xs, sizeOf x ≤ n) → JValue.canonList xs = JValue.canonList ys := by
      intro xs ys hf
      induction hf with
      | nil => exact fun _ => rfl
      | cons hxy htail ihtail =>
        intro hb
        simp only [JValue.canonList]
        rw [ih _ _ (hb _ (List.mem_cons_self _ _)) hxy,
          ihtail fun x hx => hb x (List.mem_cons_of_mem _ hx)]
    intro a b hsz h
    cases h with
    | jnull => rfl
    | jbool b => rfl
    | jnum q => rfl
    | jstr s => rfl
    | jarr hf =>
      rename_i xs ys
      simp only [JValue.canon]
      have hxs : ∀ x ∈ xs, sizeOf x ≤ n := by
        intro x hx
        have h1 := List.sizeOf_lt_of_mem hx
        simp only [JValue.jarr.sizeOf_spec] at hsz
        omega
      rw [harr xs ys hf hxs]
    | jobj hn1 hn2 hperm hvals =>
      rename_i fs gs
      simp only [JValue.canon]
      congr 1
      have hsize : ∀ k v, (k, v) ∈ fs → sizeOf v ≤ n := by
        intro k v hm
        have h1 := List.sizeOf_lt_of_mem hm
        simp only [JValue.jobj.sizeOf_spec] at hsz
        have h2 : sizeOf (k, v) = 1 + sizeOf k + sizeOf v := by simp
        omega
      have hkeysF : ((sortFields (JValue.canonFields fs)).map Prod.fst).Perm
          (fs.map Prod.fst) := by
        have := (sortFields_perm (JValue.canonFields fs)).map Prod.fst
        rwa [canonFields_keys] at this
      have hkeysG : ((sortFields (JValue.canonFields gs)).map Prod.fst).Perm
          (gs.map Prod.fst) := by
        have := (sortFields_perm (JValue.canonFields gs)).map Prod.fst
        rwa [canonFields_keys] at this
      have hkeyseq : (sortFields (JValue.canonFields fs)).map Prod.fst
          = (sortFields (JValue.canonFields gs)).map Prod.fst :=
        List.eq_of_perm_of_sorted ((hkeysF.trans hperm).trans hkeysG.symm)
          (sortFields_keys_sorted _) (sortFields_keys_sorted _)
      have hndF : ((sortFields (JValue.canonFields fs)).map Prod.fst).Nodup :=
        hkeysF.nodup_iff.mpr hn1
      refine sorted_assoc_ext hkeyseq hndF ?_
      intro k v w hvF hwG
      have hvF' : (k, v) ∈ JValue.canonFields fs :=
        (sortFields_perm _).mem_iff.mp hvF
      have hwG' : (k, w) ∈ JValue.canonFields gs :=
        (sortFields_perm _).mem_iff.mp hwG
      rw [JValue.canonFields_eq_map] at hvF' hwG'
      obtain ⟨⟨k1, v0⟩, hv0, hveq⟩ := List.mem_map.mp hvF'
      obtain ⟨⟨k2, w0⟩, hw0, hweq⟩ := List.mem_map.mp hwG'
      simp only [Prod.mk.injEq] at hveq hweq
      obtain ⟨rfl, rfl⟩ := hveq
      obtain ⟨rfl, rfl⟩ := hweq
      exact ih _ _ (hsize _ _ hv0) (hvals _ _ _ hv0 hw0)

/-- Key-value-equivalent configurations canonicalize identically. -/
lemma canon_eq_of_jequiv {a b : JValue} (h : JEquiv a b) : a.canon = b.canon :=
  canon_eq_of_jequiv_aux (sizeOf a) a b le_rfl h

/-- C7: the configuration hash is invariant under key reordering — for
configurations with the same key-value content in any key order,
`compute_config_hash` (the digest of the key-sorted serialization)
returns the same hash. -/
theorem C7_config_hash_key_order_invariant (a b : JValue) (h : JEquiv a b) :
    compute_config_hash a = compute_config_hash b := by
  unfold compute_config_hash jsonDumps
  rw [canon_eq_of_jequiv h]

/-- Witness for C7: hash({x:1, y:2}) = hash({y:2, x:1}). -/
theorem C7_config_hash_key_order_invariant_witness :
    JEquiv (.jobj [("x", .jnum 1), ("y", .jnum 2)])
        (.jobj [("y", .jnum 2), ("x", .jnum 1)]) ∧
      compute_config_hash (.jobj [("x", .jnum 1), ("y", .jnum 2)])
        = compute_config_hash (.jobj [("y", .jnum 2), ("x", .jnum 1)]) := by
  have heq : JEquiv (.jobj [("x", .jnum 1), ("y", .jnum 2)])
      (.jobj [("y", .jnum 2), ("x", .jnum 1)]) := by
    refine JEquiv.jobj (by decide) (by decide) (List.Perm.swap "y" "x" []) ?_
    intro k v w h1 h2
    simp only [List.mem_cons, List.not_mem_nil, or_false, Prod.mk.injEq] at h1 h2
    rcases h1 with ⟨rfl, rfl⟩ | ⟨rfl, rfl⟩ <;>
      rcases h2 with ⟨hk, rfl⟩ | ⟨hk, rfl⟩
    · exact absurd hk (by decide)
    · exact JEquiv.jnum 1
    · exact JEquiv.jnum 2
    · exact absurd hk (by decide)
  exact ⟨heq, C7_config_hash_key_order_invariant _ _ heq⟩

/-- The version record persisted by `VersionManager.save_version`
(the spec data model calls the `config` field `config_snapshot`). -/
structure VersionData where
  version_id : String
  config_hash : ℕ
  timestamp : String
  config : JValue
  metadata : JValue

/-- `VersionManager.save_version` from governance/governance.py. The
version directory is modelled as a key-value store from version_id to the
written JSON record (file writing and JSON serialization of the record
are not re-modelled; a JSON value round-trips through json.dump/json.load
unchanged). `datetime.now()` is passed in explicitly as `timestamp`.
Returns the version id and the updated store. -/
def save_version (store : List (String × VersionData)) (config : JValue)
    (version_name : Option String) (metadata : Option JValue) (timestamp : String) :
    String × List (String × VersionData) :=
  let config_hash := compute_config_hash config
  let base := timestamp ++ "_" ++ toString config_hash
  let version_id :=
    match version_name with
    | some nm => nm ++ "_" ++ base
    | none => base
  let data : VersionData :=
    ⟨version_id, config_hash, timestamp, config, metadata.getD (.jobj [])⟩
  (version_id, (version_id, data) :: store)

/-- `VersionManager.load_version`: read the version file, raising
FileNotFoundError (the `Except.error` case) when it does not exist. -/
def load_version (store : List (String × VersionData)) (version_id : String) :
    Except String VersionData :=
  match store.lookup version_id with
  | some d => .ok d
  | none => .error ("Version not found: " ++ version_id)

/-- C8: round-trip of configuration versioning — loading the version id
returned by saving a configuration yields a record whose config snapshot
is the saved configuration. -/
theorem C8_save_load_round_trip (store : List (String × VersionData))
    (config : JValue) (version_name : Option String) (metadata : Option JValue)
    (timestamp : String) :
    ∃ data : VersionData,
      load_version (save_version store config version_name metadata timestamp).2
          (save_version store config version_name metadata timestamp).1
        = .ok data ∧ data.config = config := by
  have h : load_version (save_version store config version_name metadata timestamp).2
      (save_version store config version_name metadata timestamp).1
      = .ok ⟨(save_version store config version_name metadata timestamp).1,
          compute_config_hash config, timestamp, config, metadata.getD (.jobj [])⟩ := by
    simp [load_version, save_version, List.lookup]
  exact ⟨_, h, rfl⟩

/-- C5 (amended): a missing version snapshot is a hard failure on load
(FileNotFoundError); but a configured signal name that never appears in
the data is silently skipped by `aggregate_weighted` — appending it to
the weights changes nothing, and a block none of whose configured signals
are present yields NaN (`none`) rather than raising. -/
theorem C5_only_load_version_fails_hard :
    (∀ (store : List (String × VersionData)) (vid : String),
      store.lookup vid = none →
      load_version store vid = .error ("Version not found: " ++ vid)) ∧
    (∀ (α : Type) (inst : LinearOrderedField α) (df_signals : List (NormRow α))
        (ticker : String) (date : ℤ) (ws : List (String × ℚ)) (sname : String) (w : ℚ),
      ((((df_signals.filter fun r => r.ticker == ticker && r.date == date).filter
          fun r => r.signal_name == sname).head?).bind (fun r => r.value_normalized))
        = none →
      aggregate_weighted df_signals ticker date (ws ++ [(sname, w)])
        = aggregate_weighted df_signals ticker date ws) ∧
    (aggregate_weighted ([⟨20240101, "E1", "B", none, none, none, some 60⟩] : List (NormRow ℚ))
        "E1" 20240101 [("unknown_signal", 1)]).1 = none := by
  refine ⟨?_, ?_, ?_⟩
  · intro store vid hmiss
    simp [load_version, hmiss]
  · intro α inst df t d ws sname w habsent
    simp only [aggregate_weighted, aggregate_weighted_foldl, List.filterMap_append,
      List.filterMap_cons, habsent, Option.map_none', List.filterMap_nil,
      List.append_nil]
  · simp [aggregate_weighted]

/-- C5 counterexample: aggregating a block whose one configured signal
name never appears in the data returns (NaN, no components) silently —
no exception is raised for the unknown signal name. -/
theorem C5_counterexample_unknown_signal_silent :
    aggregate_weighted ([⟨20240101, "E1", "B", none, none, none, some 60⟩] : List (NormRow ℚ))
        "E1" 20240101 [("unknown_signal", 1)] = (none, []) := by
  simp [aggregate_weighted]

/-- Witness for C5: loading a never-saved version id fails, and an
unknown signal name appended to the weights leaves the score unchanged. -/
theorem C5_only_load_version_fails_hard_witness :
    (List.lookup "nope" ([] : List (String × VersionData)) = none ∧
      load_version [] "nope" = .error ("Version not found: " ++ "nope")) ∧
    (((((([⟨20240101, "E1", "A", none, none, none, some 80⟩] : List (NormRow ℚ)).filter
          fun r => r.ticker == "E1" && r.date == 20240101).filter
          fun r => r.signal_name == "unknown_signal").head?).bind
          (fun r => r.value_normalized)) = none ∧
      aggregate_weighted ([⟨20240101, "E1", "A", none, none, none, some 80⟩] : List (NormRow ℚ))
          "E1" 20240101 ([("A", 1)] ++ [("unknown_signal", 1)])
        = aggregate_weighted ([⟨20240101, "E1", "A", none, none, none, some 80⟩] : List (NormRow ℚ))
          "E1" 20240101 [("A", 1)]) :=
  ⟨⟨rfl, C5_only_load_version_fails_hard.1 [] "nope" rfl⟩,
    ⟨by simp, C5_only_load_version_fails_hard.2.1 ℚ inferInstance
      [⟨20240101, "E1", "A", none, none, none, some 80⟩] "E1" 20240101
      [("A", 1)] "unknown_signal" 1 (by simp)⟩⟩

/-- `Series.rank(pct=True)` with the default average method: the average
ordinal rank of the value among the valid values, divided by their count:
`(#{u < v} + (#{u = v} + 1) / 2) / n`. -/
def rankPct (vs : List ℚ) (v : ℚ) : ℚ :=
  (((vs.filter fun u => decide (u < v)).length : ℚ)
    + (((vs.filter fun u => u == v).length : ℚ) + 1) / 2) / vs.length

/-- `pd.cut(ranks, bins=[0, .2, .4, .6, .8, 1], labels=[1..5],
include_lowest=True)`: the first band is closed, the rest are left-open,
values outside [0, 1] get no label. -/
def bucketOfRank (r : ℚ) : Option ℕ :=
  if r < 0 then none
  else if r ≤ 1 / 5 then some 1
  else if r ≤ 2 / 5 then some 2
  else if r ≤ 3 / 5 then some 3
  else if r ≤ 4 / 5 then some 4
  else if r ≤ 1 then some 5
  else none

/-- The per-entry quintile of `calculate_quintiles`: NaN scores keep the
NA they were initialized with, valid scores are bucketed by percentile
rank among the valid scores. -/
def quintOfOpt (vs : List ℚ) : Option ℚ → Option ℕ
  | none => none
  | some v => bucketOfRank (rankPct vs v)

/-- `calculate_quintiles` from recalculate_quintiles.py: rank the valid
values by percentile and cut into the five bands; the all-NA series is
returned untouched when there is no valid value. -/
def calculate_quintiles (series : QSeries) : List (Option ℕ) :=
  let valid := definedVals series
  if valid.length = 0 then series.map fun _ => none
  else series.map (quintOfOpt valid)

/-- The bucket of the percentile rank `(k+1)/100`, rephrased on the
ordinal `k`: exactly 20 ordinals land in each quintile. -/
lemma bucket_rank_nat (k : ℕ) :
    bucketOfRank (((k : ℚ) + 1) / 100)
      = if k < 20 then some 1 else if k < 40 then some 2 else if k < 60 then some 3
        else if k < 80 then some 4 else if k < 100 then some 5 else none := by
  have hb : ∀ m : ℕ, ((((k : ℚ) + 1) / 100 ≤ (m : ℚ) / 5) ↔ (k < 20 * m)) := by
    intro m
    rw [div_le_div_iff₀ (by norm_num) (by norm_num)]
    constructor
    · intro hh
      have h1 : (k : ℚ) ≤ 20 * m - 1 := by push_cast at hh ⊢; linarith
      by_contra hcon
      push_neg at hcon
      have : (20 * m : ℚ) ≤ (k : ℚ) := by exact_mod_cast hcon
      linarith
    · intro hh
      have h1 : (k : ℚ) + 1 ≤ 20 * m := by
        have : (k + 1 : ℕ) ≤ 20 * m := hh
        exact_mod_cast this
      push_cast at h1 ⊢
      linarith
  have h0 : ¬ ((((k : ℚ) + 1) / 100) < 0) := not_lt.mpr (by positivity)
  have e1 := hb 1
  have e2 := hb 2
  have e3 := hb 3
  have e4 := hb 4
  have e5 := hb 5
  norm_num at e1 e2 e3 e4 e5
  simp only [bucketOfRank, if_neg h0, e1, e2, e3, e4, e5]

lemma filter_quintOfOpt (xs : QSeries) (vs : List ℚ) (q : ℕ) :
    (xs.filter fun o => quintOfOpt vs o == some q).length
      = ((definedVals xs).filter fun v => bucketOfRank (rankPct vs v) == some q).length := by
  induction xs with
  | nil => rfl
  | cons o os ih =>
    cases o with
    | none =>
      simpa [definedVals, List.filterMap_cons, List.filter_cons, quintOfOpt] using ih
    | some v =>
      simp only [definedVals, List.filterMap_cons, List.filter_cons, quintOfOpt] at ih ⊢
      cases hq : (bucketOfRank (rankPct vs v) == some q) <;> simp [hq, ih]

/-- Under distinct valid values, the average-rank percentile reduces to
`(#{u < v} + 1) / n`. -/
lemma rankPct_nodup {vs : List ℚ} (hn : vs.Nodup) {v : ℚ} (hv : v ∈ vs) :
    rankPct vs v = (((vs.filter fun u => decide (u < v)).length : ℚ) + 1) / vs.length := by
  unfold rankPct
  have hc : (vs.filter fun u => u == v).length = 1 := by
    rw [← List.countP_eq_length_filter]
    exact List.count_eq_one_of_mem hn hv
  rw [hc]
  norm_num

lemma filter_length_toFinset {l : List ℚ} (p : ℚ → Bool) (h : l.Nodup) :
    (l.filter p).length = (l.toFinset.filter fun a => p a).card := by
  rw [← List.toFinset_filter, List.toFinset_card_of_nodup (h.filter p)]

/-- Counting a quintile over `calculate_quintiles` of a 100-element
distinct series equals counting ordinals in the corresponding band. -/
lemma quintile_count (xs : QSeries) (q : ℕ)
    (hlen : (definedVals xs).length = 100) (hn : (definedVals xs).Nodup) :
    ((calculate_quintiles xs).filter fun o => o == some q).length
      = ((Finset.range 100).filter
          fun k => (if k < 20 then some 1 else if k < 40 then some 2
            else if k < 60 then some 3 else if k < 80 then some 4
            else if k < 100 then some 5 else none) == some q).card := by
  have hne : ¬ ((definedVals xs).length = 0) := by omega
  rw [calculate_quintiles]
  simp only [if_neg hne]
  rw [List.map_filter, List.length_map]
  have hcomp : ((fun o => o == some q) ∘ quintOfOpt (definedVals xs))
      = fun o => quintOfOpt (definedVals xs) o == some q := rfl
  rw [hcomp, filter_quintOfOpt]
  set vs := definedVals xs with hvs
  have hrank : (vs.filter fun v => bucketOfRank (rankPct vs v) == some q)
      = vs.filter fun v =>
        (if (vs.filter fun u => decide (u < v)).length < 20 then some 1
          else if (vs.filter fun u => decide (u < v)).length < 40 then some 2
          else if (vs.filter fun u => decide (u < v)).length < 60 then some 3
          else if (vs.filter fun u => decide (u < v)).length < 80 then some 4
          else if (vs.filter fun u => decide (u < v)).length < 100 then some 5
          else none) == some q := by
    refine List.filter_congr ?_
    intro v hv
    rw [rankPct_nodup hn hv, hlen]
    simp only [Nat.cast_ofNat]
    rw [bucket_rank_nat]
  rw [hrank]
  rw [filter_length_toFinset _ hn]
  set S := vs.toFinset with hS
  have hScard : S.card = 100 := by
    rw [hS, List.toFinset_card_of_nodup hn, hlen]
  have hcnt : ∀ v, (vs.filter fun u => decide (u < v)).length
      = (S.filter fun u => u < v).card := by
    intro v
    rw [filter_length_toFinset _ hn, hS]
    congr 1
    refine Finset.filter_congr ?_
    intro u _
    simp
  have hNS : ∀ v ∈ S, (S.filter fun u => u < v).card ≤ 99 := by
    intro v hvS
    have hsub : (S.filter fun u => u < v) ⊆ S.erase v := by
      intro u hu
      simp only [Finset.mem_filter] at hu
      exact Finset.mem_erase.mpr ⟨ne_of_lt hu.2, hu.1⟩
    calc (S.filter fun u => u < v).card ≤ (S.erase v).card := Finset.card_le_card hsub
      _ = S.card - 1 := Finset.card_erase_of_mem hvS
      _ = 99 := by omega
  have hinj : Set.InjOn (fun v => (S.filter fun u => u < v).card) S := by
    intro a ha b hb hab
    by_contra hne2
    rcases lt_or_gt_of_ne hne2 with hlt | hlt
    · have hss : (S.filter fun u => u < a) ⊂ (S.filter fun u => u < b) := by
        refine Finset.ssubset_iff_of_subset
          (Finset.monotone_filter_right S fun u hu => lt_trans hu hlt) |>.mpr ?_
        exact ⟨a, Finset.mem_filter.mpr ⟨ha, hlt⟩,
          fun hmem => absurd (Finset.mem_filter.mp hmem).2 (lt_irrefl a)⟩
      exact absurd hab (Nat.ne_of_lt (Finset.card_lt_card hss))
    · have hss : (S.filter fun u => u < b) ⊂ (S.filter fun u => u < a) := by
        refine Finset.ssubset_iff_of_subset
          (Finset.monotone_filter_right S fun u hu => lt_trans hu hlt) |>.mpr ?_
        exact ⟨b, Finset.mem_filter.mpr ⟨hb, hlt⟩,
          fun hmem => absurd (Finset.mem_filter.mp hmem).2 (lt_irrefl b)⟩
      exact absurd hab.symm (Nat.ne_of_lt (Finset.card_lt_card hss))
  have himg : S.image (fun v => (S.filter fun u => u < v).card) = Finset.range 100 := by
    refine Finset.eq_of_subset_of_card_le ?_ ?_
    · intro k hk
      obtain ⟨v, hvS, rfl⟩ := Finset.mem_image.mp hk
      exact Finset.mem_range.mpr (by have := hNS v hvS; omega)
    · rw [Finset.card_range, Finset.card_image_of_injOn hinj, hScard]
  have hfilterS : (S.filter fun v =>
      (if (vs.filter fun u => decide (u < v)).length < 20 then some 1
        else if (vs.filter fun u => decide (u < v)).length < 40 then some 2
        else if (vs.filter fun u => decide (u < v)).length < 60 then some 3
        else if (vs.filter fun u => decide (u < v)).length < 80 then some 4
        else if (vs.filter fun u => decide (u < v)).length < 100 then some 5
        else none) == some q)
      = S.filter fun v =>
        ((fun k : ℕ => (if k < 20 then some 1 else if k < 40 then some 2
          else if k < 60 then some 3 else if k < 80 then some 4
          else if k < 100 then some 5 else none) == some q)
          ((fun v => (S.filter fun u => u < v).card) v)) := by
    refine Finset.filter_congr ?_
    intro v _
    rw [hcnt v]
  rw [hfilterS]
  conv_rhs => rw [← himg, Finset.filter_image]
  rw [Finset.card_image_of_injOn
    (hinj.mono (Finset.coe_subset.mpr (Finset.filter_subset _ S)))]

/-- C6: the percentile-rank quintile method on 100 entities with distinct
scores puts exactly 20 entities in each of the five quintiles, and null
scores receive no quintile (NA, not quintile 0). -/
theorem C6_percentile_quintiles_balanced (xs : QSeries)
    (hlen : (definedVals xs).length = 100) (hn : (definedVals xs).Nodup) :
    (∀ q, 1 ≤ q → q ≤ 5 →
      ((calculate_quintiles xs).filter fun o => o == some q).length = 20) ∧
    (∀ i : ℕ, xs[i]? = some none → (calculate_quintiles xs)[i]? = some none) := by
  constructor
  · intro q h1 h5
    rw [quintile_count xs q hlen hn]
    interval_cases q <;> decide
  · intro i hi
    rw [calculate_quintiles]
    by_cases hz : (definedVals xs).length = 0
    · simp only [if_pos hz, List.getElem?_map, hi, Option.map_some']
    · simp only [if_neg hz, List.getElem?_map, hi, Option.map_some']
      rfl

/-- Witness for C6: the series 0..99 (all distinct) gets exactly 20
entities per quintile. -/
theorem C6_percentile_quintiles_balanced_witness :
    ((definedVals ((List.range 100).map fun i => some ((i : ℚ)))).length = 100 ∧
        (definedVals ((List.range 100).map fun i => some ((i : ℚ)))).Nodup) ∧
      ∀ q, 1 ≤ q → q ≤ 5 →
        ((calculate_quintiles ((List.range 100).map fun i => some ((i : ℚ)))).filter
          fun o => o == some q).length = 20 :=
  ⟨⟨by decide, by decide⟩,
    (C6_percentile_quintiles_balanced _ (by decide) (by decide)).1⟩

/-- A row of the raw-signals dataframe fed to the normalizer. -/
structure RawRow where
  date : ℤ
  ticker : String
  signal_name : String
  value_raw : Option ℚ

/-- `Series.unique()`: the distinct values in first-appearance order. -/
def uniqueFirst {α : Type} [BEq α] (l : List α) : List α :=
  l.foldl (fun acc a => if acc.contains a then acc else acc ++ [a]) []

/-- Reassemble the dataframe rows of one group with the three columns the
normalizer adds. -/
def mkNormRows : List RawRow → QSeries → List (Option ℝ) → List (Option ℝ) →
    List (NormRow ℝ)
  | r :: rs, a :: as_, b :: bs, c :: cs =>
    ⟨r.date, r.ticker, r.signal_name, r.value_raw, a, b, c⟩ :: mkNormRows rs as_ bs cs
  | _, _, _, _ => []

/-- `normalize_signal` from scoring/normalizer.py (the cross-sectional
default): filter to the signal, then normalize each date group with
`normalize_group` and concatenate the groups in first-appearance date
order. -/
noncomputable def normalize_signal (df_signals : List RawRow) (signal_name : String)
    (direction : ℤ) (p_low p_high : ℚ) (use_robust : Bool) : List (NormRow ℝ) :=
  let signal_df := df_signals.filter fun r => r.signal_name == signal_name
  (uniqueFirst (signal_df.map fun r => r.date)).flatMap fun date =>
    let date_df := signal_df.filter fun r => r.date == date
    let cols := normalize_group (date_df.map fun r => r.value_raw)
      direction p_low p_high use_robust
    mkNormRows date_df cols.1 cols.2.1 cols.2.2

/-- `dict.get(key, default)` on a JSON object (`None`-like on non-objects;
non-object configs never reach these accessors in the source). -/
def jget (cfg : JValue) (key : String) : Option JValue :=
  match cfg with
  | .jobj fs => fs.lookup key
  | _ => none

/-- The fields of a JSON object (`dict.items()` order). -/
def jfields : JValue → List (String × JValue)
  | .jobj fs => fs
  | _ => []

/-- A numeric leaf; a non-numeric value where the source expects a number
is treated as absent. -/
def jnumOf : JValue → Option ℚ
  | .jnum q => some q
  | _ => none

/-- A boolean leaf. -/
def jboolOf : JValue → Option Bool
  | .jbool b => some b
  | _ => none

/-- A string leaf. -/
def jstrOf : JValue → Option String
  | .jstr s => some s
  | _ => none

/-- An integer leaf (signal directions are the integers ±1). -/
def jintOf : JValue → Option ℤ
  | .jnum q => if q.den = 1 then some q.num else none
  | _ => none

/-- `signal_config.get('weight', 0)` over one signals dict. -/
def signalWeights (signals_cfg : JValue) : List (String × ℚ) :=
  (jfields signals_cfg).map fun p => (p.1, ((jget p.2 "weight").bind jnumOf).getD 0)

/-- The `signal_directions` dict built by `normalize_all_signals`: walk
the four blocks, their flat `signals` and their `subblocks` signals, each
assignment shadowing earlier ones (the later binding is consed in front,
and lookups take the first). -/
def signalDirections (config : JValue) : List (String × ℤ) :=
  ["contrarian", "turnaround", "piotroski", "quality"].foldl (fun acc block =>
    let block_config := (jget config block).getD (.jobj [])
    let acc1 := (jfields ((jget block_config "signals").getD (.jobj []))).foldl
      (fun acc2 p => (p.1, ((jget p.2 "direction").bind jintOf).getD 1) :: acc2) acc
    (jfields ((jget block_config "subblocks").getD (.jobj []))).foldl
      (fun acc2 sb =>
        (jfields ((jget sb.2 "signals").getD (.jobj []))).foldl
          (fun acc3 p => (p.1, ((jget p.2 "direction").bind jintOf).getD 1) :: acc3) acc2)
      acc1) []

/-- `normalize_all_signals` from scoring/normalizer.py: read the
winsorization percentiles and the robust flag from the configuration,
collect the signal directions, and normalize every distinct signal name
of the dataframe (direction 1 when unconfigured). -/
noncomputable def normalize_all_signals (df_signals : List RawRow) (config : JValue) :
    List (NormRow ℝ) :=
  let norm_config := (jget config "normalization").getD (.jobj [])
  let wins := (jget norm_config "winsorize").getD (.jobj [])
  let p_low := ((jget wins "p_low").bind jnumOf).getD (5 / 100)
  let p_high := ((jget wins "p_high").bind jnumOf).getD (95 / 100)
  let zs := (jget norm_config "z_score").getD (.jobj [])
  let use_robust := ((jget zs "use_robust").bind jboolOf).getD true
  let dirs := signalDirections config
  (uniqueFirst (df_signals.map fun r => r.signal_name)).flatMap fun sname =>
    normalize_signal df_signals sname ((dirs.lookup sname).getD 1) p_low p_high use_robust

/-- A row of the block-scores dataframe produced by `compute_all_scores`
(the `details` payload, a recomputation of the same pure aggregates, is
not re-modelled; the spec's BlockScore carries exactly these columns plus
the quintile added later). -/
structure ScoreRow where
  date : ℤ
  ticker : String
  block : String
  score_raw : Option ℝ
  score_adjusted : Option ℝ
  penalties : List (String × ℚ)

/-- `compute_contrarian_score` from scoring/aggregator.py (the score
component of its return value). -/
noncomputable def compute_contrarian_score (df : List (NormRow ℝ)) (ticker : String)
    (date : ℤ) (config : JValue) : Option ℝ :=
  (aggregate_weighted df ticker date
    (signalWeights ((jget ((jget config "contrarian").getD (.jobj [])) "signals").getD
      (.jobj [])))).1

/-- `compute_turnaround_score` from scoring/aggregator.py. -/
noncomputable def compute_turnaround_score (df : List (NormRow ℝ)) (ticker : String)
    (date : ℤ) (config : JValue) : Option ℝ :=
  (aggregate_weighted df ticker date
    (signalWeights ((jget ((jget config "turnaround").getD (.jobj [])) "signals").getD
      (.jobj [])))).1

/-- `compute_piotroski_score` from scoring/aggregator.py: the first
`piotroski_raw` row for (ticker, date), converted 0-9 → 0-100 linearly
(or taken from `value_normalized` under a non-linear conversion setting). -/
noncomputable def compute_piotroski_score (df : List (NormRow ℝ)) (ticker : String)
    (date : ℤ) (config : JValue) : Option ℝ :=
  let rows := df.filter fun r =>
    r.ticker == ticker && r.date == date && r.signal_name == "piotroski_raw"
  match rows.head? with
  | none => none
  | some row =>
    let conversion :=
      ((jget ((jget config "piotroski").getD (.jobj [])) "conversion").bind jstrOf).getD
        "linear"
    if conversion == "linear" then
      row.value_raw.map fun r => ((r / 9 * 100 : ℚ) : ℝ)
    else
      match row.value_normalized with
      | some vn => some vn
      | none => row.value_raw.map fun r => ((r / 9 * 100 : ℚ) : ℝ)

/-- `compute_quality_score` from scoring/aggregator.py: aggregate each
configured sub-block by `aggregate_weighted`, then combine the defined
sub-block scores by the same renormalized weighted average. -/
noncomputable def compute_quality_score (df : List (NormRow ℝ)) (ticker : String)
    (date : ℤ) (config : JValue) : Option ℝ :=
  let subblocks := jfields ((jget ((jget config "quality").getD (.jobj [])) "subblocks").getD
    (.jobj []))
  let sbs : List (ℚ × Option ℝ) := subblocks.map fun sb =>
    (((jget sb.2 "weight").bind jnumOf).getD 0,
      (aggregate_weighted df ticker date
        (signalWeights ((jget sb.2 "signals").getD (.jobj [])))).1)
  let acc := sbs.foldl (fun acc p =>
    match p.2 with
    | some sc => (acc.1 + p.1, acc.2 + sc * (p.1 : ℝ))
    | none => acc) ((0 : ℚ), (0 : ℝ))
  if 0 < acc.1 then some (acc.2 / (acc.1 : ℝ)) else none

/-- The soft-penalty rules read from
`config['risk_penalties']['soft_penalties']` with the source defaults. -/
def penaltyRules (config : JValue) : List PenaltyRule :=
  (jfields ((jget ((jget config "risk_penalties").getD (.jobj [])) "soft_penalties").getD
    (.jobj []))).map fun p =>
    ⟨p.1,
      (match (jget p.2 "affected_scores").getD (.jarr []) with
        | .jarr xs => xs.filterMap jstrOf
        | _ => []),
      ((jget p.2 "threshold_percentile").bind jnumOf).getD 90,
      ((jget p.2 "max_penalty").bind jnumOf).getD 10⟩

/-- `compute_all_scores` from scoring/aggregator.py: for every distinct
(ticker, date) of the normalized signals, emit the four block rows, each
score passed through `apply_risk_penalties`. -/
noncomputable def compute_all_scores (df_signals : List (NormRow ℝ))
    (df_risk : List RiskRow) (config : JValue) : List ScoreRow :=
  let pens := penaltyRules config
  (uniqueFirst (df_signals.map fun r => (r.ticker, r.date))).flatMap fun td =>
    let c := compute_contrarian_score df_signals td.1 td.2 config
    let ca := apply_risk_penalties c td.1 td.2 df_risk pens "contrarian"
    let t := compute_turnaround_score df_signals td.1 td.2 config
    let ta := apply_risk_penalties t td.1 td.2 df_risk pens "turnaround"
    let p := compute_piotroski_score df_signals td.1 td.2 config
    let pa := apply_risk_penalties p td.1 td.2 df_risk pens "piotroski"
    let q := compute_quality_score df_signals td.1 td.2 config
    let qa := apply_risk_penalties q td.1 td.2 df_risk pens "quality"
    [⟨td.2, td.1, "contrarian", c, ca.1, ca.2⟩,
      ⟨td.2, td.1, "turnaround", t, ta.1, ta.2⟩,
      ⟨td.2, td.1, "piotroski", p, pa.1, pa.2⟩,
      ⟨td.2, td.1, "quality", q, qa.1, qa.2⟩]

open Classical in
/-- `get_quintile` from scoring/aggregator.py: NaN score → no quintile;
zero stddev → no quintile; otherwise bucket the z-score at the fixed
cutoffs {-0.84, -0.25, 0.25, 0.84}. A NaN stddev (a single-entity date
group) or NaN mean makes the z-score NaN, every `<` comparison false, and
the function falls through to the else branch: quintile 5. -/
noncomputable def get_quintile (score mean stddev : Option ℝ) : Option ℤ :=
  match score with
  | none => none
  | some s =>
    if stddev = some 0 then none
    else
      match mean, stddev with
      | some m, some sd =>
        if (s - m) / sd < -0.84 then some 1
        else if (s - m) / sd < -0.25 then some 2
        else if (s - m) / sd < 0.25 then some 3
        else if (s - m) / sd < 0.84 then some 4
        else some 5
      | _, _ => some 5

/-- The defined values of a real-valued series. -/
def definedValsR (xs : List (Option ℝ)) : List ℝ := xs.filterMap id

/-- `Series.mean()` (skipna) of the adjusted scores of a date group. -/
noncomputable def groupMean (xs : List (Option ℝ)) : Option ℝ :=
  match definedValsR xs with
  | [] => none
  | l => some (l.sum / l.length)

/-- `Series.std()` (skipna, ddof = 1) of the adjusted scores of a date
group: NaN for fewer than two defined values. -/
noncomputable def groupStd (xs : List (Option ℝ)) : Option ℝ :=
  let l := definedValsR xs
  if 2 ≤ l.length then
    some (Real.sqrt ((l.map fun v => (v - l.sum / l.length) ^ 2).sum / (l.length - 1)))
  else none

/-- `add_quintiles` from scoring/aggregator.py: compute one quintile per
reference-block row from its date group's mean/std of `score_adjusted`,
then left-merge the quintiles onto every row by (date, ticker). The merge
emits one output row per matching quintile row (pandas semantics), and a
row with no match gets an NA quintile. -/
noncomputable def add_quintiles (df_scores : List ScoreRow) (reference_block : String) :
    List (ScoreRow × Option ℤ) :=
  let ref_scores := df_scores.filter fun r => r.block == reference_block
  let quintile_df : List (ℤ × String × Option ℤ) :=
    (uniqueFirst (ref_scores.map fun r => r.date)).flatMap fun date =>
      let date_scores := ref_scores.filter fun r => r.date == date
      let mean := groupMean (date_scores.map fun r => r.score_adjusted)
      let std := groupStd (date_scores.map fun r => r.score_adjusted)
      date_scores.map fun r => (date, r.ticker, get_quintile r.score_adjusted mean std)
  df_scores.flatMap fun r =>
    match quintile_df.filter fun qd => qd.1 == r.date && qd.2.1 == r.ticker with
    | [] => [(r, none)]
    | ms => ms.map fun qd => (r, qd.2.2)

/-- The full scoring pipeline normalize → aggregate → quintile, as the
source composes it. -/
noncomputable def scoring_pipeline (df_raw : List RawRow) (df_risk : List RiskRow)
    (config : JValue) (reference_block : String) : List (ScoreRow × Option ℤ) :=
  add_quintiles (compute_all_scores (normalize_all_signals df_raw config) df_risk config)
    reference_block

/-- C9: determinism of the pipeline — the embedding of
normalize_all_signals → compute_all_scores → add_quintiles is a pure
function of the raw signals, the risk metrics, the configuration and the
reference block (no clock, no global state, no nondeterministic
iteration: dataframe and dict traversal orders are the deterministic
insertion orders), so two runs on equal inputs give equal BlockScores. -/
theorem C9_pipeline_deterministic (raw1 raw2 : List RawRow) (risk1 risk2 : List RiskRow)
    (cfg1 cfg2 : JValue) (rb1 rb2 : String) (hraw : raw1 = raw2) (hrisk : risk1 = risk2)
    (hcfg : cfg1 = cfg2) (hrb : rb1 = rb2) :
    scoring_pipeline raw1 risk1 cfg1 rb1 = scoring_pipeline raw2 risk2 cfg2 rb2 := by
  subst hraw hrisk hcfg hrb
  rfl

/-- Witness for C9: two runs on a small concrete input coincide. -/
theorem C9_pipeline_deterministic_witness :
    ([⟨20240101, "E1", "momentum", some 10⟩] : List RawRow)
        = [⟨20240101, "E1", "momentum", some 10⟩] ∧
      scoring_pipeline [⟨20240101, "E1", "momentum", some 10⟩]
          [⟨"E1", 20240101, [("vol", some 1)]⟩] (.jobj []) "contrarian"
        = scoring_pipeline [⟨20240101, "E1", "momentum", some 10⟩]
          [⟨"E1", 20240101, [("vol", some 1)]⟩] (.jobj []) "contrarian" :=
  ⟨rfl, C9_pipeline_deterministic _ _ _ _ _ _ _ _ rfl rfl rfl rfl⟩

/-- The single quintile the merge of `add_quintiles` attaches to every
row of a (date, ticker): the reference-block row's quintile from its date
group statistics, or NA when the (date, ticker) has no reference-block
row. -/
noncomputable def lookupQuintile (df : List ScoreRow) (rb : String) (date : ℤ)
    (ticker : String) : Option ℤ :=
  let ref := df.filter fun r => r.block == rb
  match (ref.filter fun r => r.date == date && r.ticker == ticker).head? with
  | none => none
  | some r =>
    let date_scores := ref.filter fun r2 => r2.date == date
    get_quintile r.score_adjusted
      (groupMean (date_scores.map fun r2 => r2.score_adjusted))
      (groupStd (date_scores.map fun r2 => r2.score_adjusted))

lemma uniqueFirst_go_nodup {α : Type} [BEq α] [LawfulBEq α] :
    ∀ (l acc : List α), acc.Nodup →
      (l.foldl (fun acc a => if acc.contains a then acc else acc ++ [a]) acc).Nodup := by
  intro l
  induction l with
  | nil => exact fun acc h => h
  | cons a rest ih =>
    intro acc hacc
    simp only [List.foldl_cons]
    by_cases hc : acc.contains a
    · rw [if_pos hc]
      exact ih acc hacc
    · rw [if_neg hc]
      refine ih _ ?_
      have hnotmem : a ∉ acc := fun hmem => hc (List.elem_iff.mpr hmem)
      simp [List.nodup_append, hacc, hnotmem]

lemma uniqueFirst_nodup {α : Type} [BEq α] [LawfulBEq α] (l : List α) :
    (uniqueFirst l).Nodup :=
  uniqueFirst_go_nodup l [] List.nodup_nil

lemma uniqueFirst_go_mem {α : Type} [BEq α] [LawfulBEq α] :
    ∀ (l acc : List α) (a : α),
      (a ∈ l.foldl (fun acc a => if acc.contains a then acc else acc ++ [a]) acc)
        ↔ (a ∈ acc ∨ a ∈ l) := by
  intro l
  induction l with
  | nil => simp
  | cons b rest ih =>
    intro acc a
    simp only [List.foldl_cons]
    by_cases hc : acc.contains b
    · rw [if_pos hc]
      rw [ih]
      constructor
      · rintro (h | h)
        · exact Or.inl h
        · exact Or.inr (List.mem_cons_of_mem _ h)
      · rintro (h | h)
        · exact Or.inl h
        · rcases List.mem_cons.mp h with rfl | h2
          · exact Or.inl (List.elem_iff.mp hc)
          · exact Or.inr h2
    · rw [if_neg hc]
      rw [ih]
      simp only [List.mem_append, List.mem_singleton, List.mem_cons]
      tauto

lemma mem_uniqueFirst {α : Type} [BEq α] [LawfulBEq α] {l : List α} {a : α} :
    a ∈ uniqueFirst l ↔ a ∈ l := by
  rw [uniqueFirst, uniqueFirst_go_mem]
  simp

lemma length_le_one_cases {α : Type} {l : List α} (h : l.length ≤ 1) :
    l = [] ∨ ∃ a, l = [a] := by
  match l, h with
  | [], _ => exact Or.inl rfl
  | [a], _ => exact Or.inr ⟨a, rfl⟩

lemma flatMap_eq_map {α β : Type} (l : List α) (f : α → List β) (g : α → β)
    (h : ∀ a ∈ l, f a = [g a]) : l.flatMap f = l.map g := by
  induction l with
  | nil => rfl
  | cons a rest ih =>
    simp only [List.flatMap_cons, List.map_cons, h a (List.mem_cons_self _ _)]
    rw [ih fun x hx => h x (List.mem_cons_of_mem _ hx)]
    rfl

/-- Filtering by a (date, ticker) key picks at most one reference row
when the reference keys are duplicate-free. -/
lemma filter_key_length_le_one (ref : List ScoreRow)
    (hkeys : (ref.map fun r => (r.date, r.ticker)).Nodup) (d : ℤ) (t : String) :
    (ref.filter fun r => r.date == d && r.ticker == t).length ≤ 1 := by
  induction ref with
  | nil => simp
  | cons r rest ih =>
    simp only [List.map_cons, List.nodup_cons] at hkeys
    rw [List.filter_cons]
    by_cases hmatch : (r.date == d && r.ticker == t) = true
    · rw [if_pos hmatch]
      simp only [Bool.and_eq_true, beq_iff_eq] at hmatch
      obtain ⟨rfl, rfl⟩ := hmatch
      have hrest : rest.filter (fun r2 => r2.date == r.date && r2.ticker == r.ticker) = [] := by
        rw [List.filter_eq_nil_iff]
        intro r2 hr2 hmem
        simp only [Bool.and_eq_true, beq_iff_eq] at hmem
        exact hkeys.1 (List.mem_map.mpr ⟨r2, hr2, by rw [hmem.1, hmem.2]⟩)
      simp [hrest]
    · rw [if_neg hmatch]
      exact ih hkeys.2

lemma flatMap_single_date {β : Type} (dates : List ℤ) (hnd : dates.Nodup)
    (g : ℤ → List β) (d : ℤ) (hoff : ∀ x ∈ dates, x ≠ d → g x = [])
    (hempty : d ∉ dates → g d = []) :
    dates.flatMap g = g d := by
  induction dates with
  | nil => exact (hempty (by simp)).symm
  | cons a rest ih =>
    simp only [List.nodup_cons] at hnd
    rw [List.flatMap_cons]
    by_cases had : a = d
    · subst had
      have hrest : rest.flatMap g = [] := by
        rw [List.flatMap_eq_nil_iff]
        intro x hx
        exact hoff x (List.mem_cons_of_mem _ hx) fun hxa => hnd.1 (hxa ▸ hx)
      rw [hrest, List.append_nil]
    · rw [hoff a (List.mem_cons_self _ _) had, List.nil_append]
      refine ih hnd.2 (fun x hx => hoff x (List.mem_cons_of_mem _ hx)) ?_
      intro hdm
      refine hempty ?_
      simp only [List.mem_cons, not_or]
      exact ⟨fun hda => had hda.symm, hdm⟩

/-- The quintile rows matching one (date, ticker) key are exactly the
per-date quintiles of the reference rows with that key. -/
lemma qdf_filter_key (ref : List ScoreRow) (d : ℤ) (t : String) :
    (((uniqueFirst (ref.map fun r => r.date)).flatMap fun date =>
        (ref.filter fun r => r.date == date).map fun r =>
          (date, r.ticker,
            get_quintile r.score_adjusted
              (groupMean ((ref.filter fun r2 => r2.date == date).map
                fun r2 => r2.score_adjusted))
              (groupStd ((ref.filter fun r2 => r2.date == date).map
                fun r2 => r2.score_adjusted)))).filter
      fun qd => qd.1 == d && qd.2.1 == t)
      = ((ref.filter fun r => r.date == d && r.ticker == t).map fun r =>
          (d, r.ticker,
            get_quintile r.score_adjusted
              (groupMean ((ref.filter fun r2 => r2.date == d).map
                fun r2 => r2.score_adjusted))
              (groupStd ((ref.filter fun r2 => r2.date == d).map
                fun r2 => r2.score_adjusted)))) := by
  rw [List.filter_flatMap]
  have hstep : ∀ date,
      (((ref.filter fun r => r.date == date).map fun r =>
        (date, r.ticker,
          get_quintile r.score_adjusted
            (groupMean ((ref.filter fun r2 => r2.date == date).map
              fun r2 => r2.score_adjusted))
            (groupStd ((ref.filter fun r2 => r2.date == date).map
              fun r2 => r2.score_adjusted)))).filter
        fun qd => qd.1 == d && qd.2.1 == t)
      = (((ref.filter fun r => r.date == date).filter
          fun r => date == d && r.ticker == t).map fun r =>
        (date, r.ticker,
          get_quintile r.score_adjusted
            (groupMean ((ref.filter fun r2 => r2.date == date).map
              fun r2 => r2.score_adjusted))
            (groupStd ((ref.filter fun r2 => r2.date == date).map
              fun r2 => r2.score_adjusted)))) := by
    intro date
    rw [List.map_filter]
    rfl
  rw [flatMap_single_date _ (uniqueFirst_nodup _)]
  · rw [hstep d]
    congr 1
    rw [List.filter_filter]
    refine List.filter_congr ?_
    intro r _
    simp [Bool.and_comm]
  · intro x _ hxd
    rw [hstep x]
    have : ((ref.filter fun r => r.date == x).filter fun r => x == d && r.ticker == t)
        = [] := by
      rw [List.filter_eq_nil_iff]
      intro r _ hmem
      simp only [Bool.and_eq_true, beq_iff_eq] at hmem
      exact hxd hmem.1
    rw [this, List.map_nil]
  · intro hdm
    rw [hstep d]
    have : (ref.filter fun r => r.date == d) = [] := by
      rw [List.filter_eq_nil_iff]
      intro r hr hmem
      simp only [beq_iff_eq] at hmem
      exact hdm (mem_uniqueFirst.mpr (List.mem_map.mpr ⟨r, hr, hmem⟩))
    rw [this, List.filter_nil, List.map_nil]

/-- C10: after `add_quintiles` with reference block `rb` (whose rows have
at most one row per (date, ticker)), every row of every block carries the
single quintile computed from the reference block's `score_adjusted` for
its (date, ticker) — no block is quintiled on its own scores — and the
quintile is NA when the (date, ticker) has no reference row; a NaN
reference score or a zero-std date group also produces an NA quintile. -/
theorem C10_quintiles_come_from_reference_block (df : List ScoreRow) (rb : String)
    (hkeys : ((df.filter fun r => r.block == rb).map fun r => (r.date, r.ticker)).Nodup) :
    (add_quintiles df rb = df.map fun r => (r, lookupQuintile df rb r.date r.ticker)) ∧
    (∀ mean stddev, get_quintile none mean stddev = none) ∧
    (∀ s mean, get_quintile s mean (some 0) = none) := by
  refine ⟨?_, fun mean stddev => rfl, ?_⟩
  · rw [add_quintiles]
    refine flatMap_eq_map _ _ _ ?_
    intro r _
    rw [qdf_filter_key]
    rcases length_le_one_cases
        (filter_key_length_le_one _ hkeys r.date r.ticker) with hnil | ⟨r1, hone⟩
    · rw [hnil, List.map_nil]
      rw [lookupQuintile, hnil]
      rfl
    · rw [hone, List.map_cons, List.map_nil]
      rw [lookupQuintile, hone]
      rfl
  · intro s mean
    cases s with
    | none => rfl
    | some v => simp [get_quintile]

/-- Witness for C10: two blocks, two tickers; the non-reference block
rows carry the reference block's quintiles. -/
theorem C10_quintiles_come_from_reference_block_witness :
    ((([⟨0, "A", "contrarian", some 10, some 10, []⟩,
        ⟨0, "B", "contrarian", some 20, some 20, []⟩,
        ⟨0, "A", "quality", some 70, some 70, []⟩,
        ⟨0, "B", "quality", some 80, some 80, []⟩] : List ScoreRow).filter
          fun r => r.block == "contrarian").map fun r => (r.date, r.ticker)).Nodup ∧
      add_quintiles
          [⟨0, "A", "contrarian", some 10, some 10, []⟩,
            ⟨0, "B", "contrarian", some 20, some 20, []⟩,
            ⟨0, "A", "quality", some 70, some 70, []⟩,
            ⟨0, "B", "quality", some 80, some 80, []⟩] "contrarian"
        = ([⟨0, "A", "contrarian", some 10, some 10, []⟩,
            ⟨0, "B", "contrarian", some 20, some 20, []⟩,
            ⟨0, "A", "quality", some 70, some 70, []⟩,
            ⟨0, "B", "quality", some 80, some 80, []⟩] : List ScoreRow).map
          fun r =>
            (r, lookupQuintile
              [⟨0, "A", "contrarian", some 10, some 10, []⟩,
                ⟨0, "B", "contrarian", some 20, some 20, []⟩,
                ⟨0, "A", "quality", some 70, some 70, []⟩,
                ⟨0, "B", "quality", some 80, some 80, []⟩] "contrarian" r.date r.ticker) :=
  ⟨by simp,
    (C10_quintiles_come_from_reference_block _ "contrarian" (by simp)).1⟩

end Scoring
